import Mathlib

/-!
A shallow embedding of the mark-and-sweep garbage collector in src/main.c.

C pointers to objects are modelled as natural-number addresses handed out by
a monotone allocation counter.  The heap's intrusive `first_object`/`next`
chain is modelled as a list of (address, object) entries, head of the list
being `first_object`.  The operand stack is a list with the bottom at the
head, so `stack[stack_size - 1]` is the last list element.  The `size_t`
counters are modelled as `Nat`; counter overflow needs about 2^63 live
allocations and is outside the model (the source leaves it unspecified).
Fatal assertion failures (stack overflow/underflow) are modelled as `none`.
-/

namespace MarkSweep

/-- An address stands for a C `Object *`. -/
abbrev Addr := Nat

/-- `ObjectType` together with the payload union of `struct sObject`. -/
inductive ObjData where
  | int (value : Int)
  | pair (head tail : Addr)
  deriving DecidableEq

/-- `struct sObject`: the mark byte plus the tagged payload.  The `next`
pointer is represented by the entry's position in the heap chain list. -/
structure Object where
  mark : Bool
  data : ObjData
  deriving DecidableEq

/-- The heap chain reachable from `first_object`, in chain order. -/
abbrev Heap := List (Addr × Object)

/-- `GC_INITIAL_THRESHOLD` from src/main.c. -/
def GC_INITIAL_THRESHOLD : Nat := 8

/-- `STACK_MAX` from src/main.c. -/
def STACK_MAX : Nat := 256

/-- `struct VM`: heap chain, object counters and the operand stack.
`nextAddr` is the allocator's supply of fresh addresses. -/
structure VM where
  heap : Heap
  object_num : Nat
  object_max : Nat
  stack : List Addr
  nextAddr : Addr
  deriving DecidableEq

/-- Dereferencing an address in the heap chain (pointer dereference in C). -/
def heapLookup : Heap → Addr → Option Object
  | [], _ => none
  | (b, o) :: rest, a => if b = a then some o else heapLookup rest a

/-- `obj->mark = 1` for the object at address `a`. -/
def setMark : Heap → Addr → Heap
  | [], _ => []
  | (b, o) :: rest, a =>
      if b = a then (b, { o with mark := true }) :: setMark rest a
      else (b, o) :: setMark rest a

/-- Number of unmarked entries in the chain; the termination measure of the
mark phase: each first visit of an unmarked object decreases it. -/
def unmarkedCount (h : Heap) : Nat := h.countP (fun p => !p.2.mark)

theorem unmarkedCount_setMark_le (h : Heap) (a : Addr) :
    unmarkedCount (setMark h a) ≤ unmarkedCount h := by
  induction h with
  | nil => simp [setMark]
  | cons p rest ih =>
      obtain ⟨b, o⟩ := p
      by_cases hb : b = a <;>
        simp [setMark, hb, unmarkedCount, List.countP_cons] at * <;> omega

theorem unmarkedCount_setMark_lt (h : Heap) (a : Addr) (o : Object)
    (hl : heapLookup h a = some o) (hm : o.mark = false) :
    unmarkedCount (setMark h a) < unmarkedCount h := by
  induction h with
  | nil => simp [heapLookup] at hl
  | cons p rest ih =>
      obtain ⟨b, o'⟩ := p
      by_cases hb : b = a
      · simp [heapLookup, hb] at hl
        subst hl
        have := unmarkedCount_setMark_le rest a
        simp [setMark, hb, unmarkedCount, List.countP_cons, hm] at *
        omega
      · simp [heapLookup, hb] at hl
        have := ih hl
        simp [setMark, hb, unmarkedCount, List.countP_cons] at *
        omega

/-- The recursion of `gc_mark` (see `gc_mark_eq` for its defining equations),
made worklist-explicit so that the decreasing measure is visible: visiting the
object at the front of the worklist either finds it already marked (the guard
`if (obj->mark) return;`) and drops it, or marks it and prepends its pair
children, strictly decreasing the number of unmarked objects. -/
def markWork (h : Heap) (ws : List Addr) : Heap :=
  match ws with
  | [] => h
  | a :: rest =>
    match hl : heapLookup h a with
    | none => markWork h rest
    | some o =>
      if hm : o.mark then markWork h rest
      else
        match o.data with
        | .int _ => markWork (setMark h a) rest
        | .pair hd tl => markWork (setMark h a) (hd :: tl :: rest)
  termination_by (unmarkedCount h, ws.length)
  decreasing_by
  · exact Prod.Lex.right _ (by simp)
  · exact Prod.Lex.right _ (by simp)
  · exact Prod.Lex.left _ _
      (unmarkedCount_setMark_lt h a o hl (by simpa using hm))
  · exact Prod.Lex.left _ _
      (unmarkedCount_setMark_lt h a o hl (by simpa using hm))

/-- `gc_mark`: depth-first marking from one root. -/
def gc_mark (h : Heap) (a : Addr) : Heap := markWork h [a]

/-- `gc_mark_all`: `for (i = 0; i < stack_size; ++i) gc_mark(stack[i]);`. -/
def gc_mark_all (vm : VM) : VM :=
  { vm with heap := vm.stack.foldl gc_mark vm.heap }

/-- The body of the `gc_sweep` loop: an unmarked entry is unlinked and freed,
a marked one gets `mark = 0` and stays chained. -/
def sweepChain : Heap → Heap
  | [] => []
  | (a, o) :: rest =>
      if o.mark then (a, { o with mark := false }) :: sweepChain rest
      else sweepChain rest

/-- `gc_sweep`: the loop also runs `--vm->object_num` once per freed entry,
i.e. it subtracts the number of dropped entries. -/
def gc_sweep (vm : VM) : VM :=
  { vm with heap := sweepChain vm.heap,
            object_num :=
              vm.object_num - (vm.heap.length - (sweepChain vm.heap).length) }

/-- `gc`: early return when `object_num == 0`, otherwise mark, sweep and
re-adjust `object_max = object_num ? object_num * 2 : GC_INITIAL_THRESHOLD`. -/
def gc (vm : VM) : VM :=
  if vm.object_num = 0 then vm
  else
    let vm1 := gc_sweep (gc_mark_all vm)
    { vm1 with object_max :=
        if vm1.object_num ≠ 0 then vm1.object_num * 2 else GC_INITIAL_THRESHOLD }

/-- `vm_push`: `assert(stack_size < STACK_MAX)` then append; the fatal
assertion is modelled as `none`. -/
def vm_push (vm : VM) (value : Addr) : Option VM :=
  if vm.stack.length < STACK_MAX then some { vm with stack := vm.stack ++ [value] }
  else none

/-- `vm_pop`: `assert(stack_size > 0)` then remove and return the top. -/
def vm_pop (vm : VM) : Option (VM × Addr) :=
  match vm.stack.getLast? with
  | some v => some ({ vm with stack := vm.stack.dropLast }, v)
  | none => none

/-- The allocation part of `new_object`: fresh storage, `mark = 0`, link at
the head of the chain, `++object_num`.  In C the payload union is written
immediately after `new_object` returns, with no collection in between, so the
functional model takes the payload at allocation time. -/
def alloc_object (vm : VM) (data : ObjData) : VM × Addr :=
  ({ vm with heap := (vm.nextAddr, { mark := false, data := data }) :: vm.heap,
             object_num := vm.object_num + 1,
             nextAddr := vm.nextAddr + 1 }, vm.nextAddr)

/-- `new_object`: `if (object_num == object_max) gc(vm);` then allocate. -/
def new_object (vm : VM) (data : ObjData) : VM × Addr :=
  alloc_object (if vm.object_num = vm.object_max then gc vm else vm) data

/-- `vm_push_int`: allocate an Int object, then push it. -/
def vm_push_int (vm : VM) (value : Int) : Option (VM × Addr) :=
  let r := new_object vm (.int value)
  match vm_push r.1 r.2 with
  | some vm' => some (vm', r.2)
  | none => none

/-- `vm_push_pair`: the collection trigger of `new_object` runs first, while
both operands are still on the stack; then `tail` and `head` are popped and
the Pair is linked and pushed.  (C links the uninitialized Pair before the two
pops and fills the payload right after; linking touches only the chain and the
counters, popping only the stack, so performing the pops first and linking the
initialized Pair afterwards yields the identical state.) -/
def vm_push_pair (vm : VM) : Option (VM × Addr) :=
  let vm0 := if vm.object_num = vm.object_max then gc vm else vm
  match vm_pop vm0 with
  | none => none
  | some (vm1, tl) =>
    match vm_pop vm1 with
    | none => none
    | some (vm2, hd) =>
      let r := alloc_object vm2 (.pair hd tl)
      match vm_push r.1 r.2 with
      | some vm' => some (vm', r.2)
      | none => none

/-- `new_vm`. -/
def new_vm : VM :=
  { heap := [], object_num := 0, object_max := GC_INITIAL_THRESHOLD,
    stack := [], nextAddr := 0 }

/-- `free_vm`: `stack_size = 0; gc(vm);` — the state just before the final
`free(vm)` releases the VM structure itself. -/
def free_vm (vm : VM) : VM := gc { vm with stack := [] }

/-! ## Basic chain lemmas -/

/-- The address/payload part of a chain entry: everything except the mark. -/
def eShape (p : Addr × Object) : Addr × ObjData := (p.1, p.2.data)

theorem heapLookup_setMark (h : Heap) (a x : Addr) :
    heapLookup (setMark h a) x =
      if x = a then (heapLookup h a).map (fun o => { o with mark := true })
      else heapLookup h x := by
  induction h with
  | nil => by_cases hx : x = a <;> simp [setMark, heapLookup, hx]
  | cons p rest ih =>
      obtain ⟨b, o⟩ := p
      by_cases hb : b = a
      · subst hb
        by_cases hx : x = b
        · subst hx; simp [setMark, heapLookup]
        · simp [setMark, heapLookup, hx, ih, Ne.symm hx]
      · by_cases hbx : b = x
        · subst hbx
          have hxa : ¬ b = a := hb
          simp [setMark, heapLookup, hb, hxa]
        · simp [setMark, heapLookup, hb, hbx, ih]

theorem setMark_shape (h : Heap) (a : Addr) :
    (setMark h a).map eShape = h.map eShape := by
  induction h with
  | nil => simp [setMark]
  | cons p rest ih =>
      obtain ⟨b, o⟩ := p
      by_cases hb : b = a <;> simp [setMark, hb, ih, eShape]

theorem markWork_nil (h : Heap) : markWork h [] = h := by
  unfold markWork
  rfl

theorem markWork_cons_none (h : Heap) (a : Addr) (ws : List Addr)
    (hl : heapLookup h a = none) :
    markWork h (a :: ws) = markWork h ws := by
  conv_lhs => unfold markWork
  split <;> simp_all

theorem markWork_cons_marked (h : Heap) (a : Addr) (ws : List Addr) (o : Object)
    (hl : heapLookup h a = some o) (hm : o.mark = true) :
    markWork h (a :: ws) = markWork h ws := by
  conv_lhs => unfold markWork
  split <;> simp_all

theorem markWork_cons_int (h : Heap) (a : Addr) (ws : List Addr) (o : Object)
    (v : Int) (hl : heapLookup h a = some o) (hm : o.mark = false)
    (hd : o.data = .int v) :
    markWork h (a :: ws) = markWork (setMark h a) ws := by
  conv_lhs => unfold markWork
  split <;> simp_all

theorem markWork_cons_pair (h : Heap) (a : Addr) (ws : List Addr) (o : Object)
    (hd tl : Addr) (hl : heapLookup h a = some o) (hm : o.mark = false)
    (hp : o.data = .pair hd tl) :
    markWork h (a :: ws) = markWork (setMark h a) (hd :: tl :: ws) := by
  conv_lhs => unfold markWork
  split <;> simp_all

/-! ## Shape preservation: marking changes marks only -/

theorem shape_fst {h₁ h₂ : Heap} (hs : h₁.map eShape = h₂.map eShape) :
    h₁.map Prod.fst = h₂.map Prod.fst := by
  have h := congrArg (List.map Prod.fst) hs
  simpa [List.map_map, eShape, Function.comp] using h

theorem shape_lookup {h₁ h₂ : Heap} (hs : h₁.map eShape = h₂.map eShape) (x : Addr) :
    (heapLookup h₁ x).map Object.data = (heapLookup h₂ x).map Object.data := by
  induction h₁ generalizing h₂ with
  | nil =>
      cases h₂ with
      | nil => simp
      | cons q t => simp at hs
  | cons p t ih =>
      cases h₂ with
      | nil => simp at hs
      | cons q t₂ =>
          obtain ⟨b, o⟩ := p
          obtain ⟨c, u⟩ := q
          simp only [List.map_cons, List.cons.injEq, eShape, Prod.mk.injEq] at hs
          obtain ⟨⟨hbc, hdata⟩, hrest⟩ := hs
          subst hbc
          by_cases hbx : b = x <;> simp [heapLookup, hbx, hdata, ih hrest]

theorem shape_lookup_isSome {h₁ h₂ : Heap} (hs : h₁.map eShape = h₂.map eShape)
    (x : Addr) : (heapLookup h₁ x).isSome = (heapLookup h₂ x).isSome := by
  have h := shape_lookup hs x
  cases e1 : heapLookup h₁ x <;> cases e2 : heapLookup h₂ x <;> simp_all

theorem markWork_shape (h : Heap) (ws : List Addr) :
    (markWork h ws).map eShape = h.map eShape := by
  induction h, ws using markWork.induct with
  | case1 h => rw [markWork_nil]
  | case2 h a rest hl ih => rw [markWork_cons_none h a rest hl]; exact ih
  | case3 h a rest o hl hm ih => rw [markWork_cons_marked h a rest o hl hm]; exact ih
  | case4 h a rest o hl hm v hv ih =>
      rw [markWork_cons_int h a rest o v hl (by simpa using hm) hv, ih, setMark_shape]
  | case5 h a rest o hl hm hd tl hp ih =>
      rw [markWork_cons_pair h a rest o hd tl hl (by simpa using hm) hp, ih,
        setMark_shape]

theorem markWork_append (h : Heap) (l1 l2 : List Addr) :
    markWork h (l1 ++ l2) = markWork (markWork h l1) l2 := by
  induction h, l1 using markWork.induct generalizing l2 with
  | case1 h => rw [List.nil_append, markWork_nil]
  | case2 h a rest hl ih =>
      rw [List.cons_append, markWork_cons_none h a _ hl,
        markWork_cons_none h a rest hl, ih]
  | case3 h a rest o hl hm ih =>
      rw [List.cons_append, markWork_cons_marked h a _ o hl hm,
        markWork_cons_marked h a rest o hl hm, ih]
  | case4 h a rest o hl hm v hv ih =>
      rw [List.cons_append, markWork_cons_int h a _ o v hl (by simpa using hm) hv,
        markWork_cons_int h a rest o v hl (by simpa using hm) hv, ih]
  | case5 h a rest o hl hm hd tl hp ih =>
      rw [List.cons_append,
        markWork_cons_pair h a _ o hd tl hl (by simpa using hm) hp,
        markWork_cons_pair h a rest o hd tl hl (by simpa using hm) hp]
      have h2 : hd :: tl :: (rest ++ l2) = (hd :: tl :: rest) ++ l2 := rfl
      rw [h2, ih]

/-- The defining equations of the C function `gc_mark`: return if already
marked, otherwise set the mark and recurse into the pair children. -/
theorem gc_mark_eq (h : Heap) (a : Addr) :
    gc_mark h a =
      match heapLookup h a with
      | none => h
      | some o =>
        if o.mark then h
        else
          match o.data with
          | .int _ => setMark h a
          | .pair hd tl => gc_mark (gc_mark (setMark h a) hd) tl := by
  cases hl : heapLookup h a with
  | none => simp only [gc_mark, markWork_cons_none h a [] hl, markWork_nil]
  | some o =>
      cases hm : o.mark with
      | true =>
          simp only [gc_mark, markWork_cons_marked h a [] o hl hm, markWork_nil]
          rw [hm]
          simp
      | false =>
          cases hdata : o.data with
          | int v =>
              simp only [gc_mark, markWork_cons_int h a [] o v hl hm hdata,
                markWork_nil]
              rw [hm, hdata]
              simp
          | pair hd tl =>
              simp only [gc_mark, markWork_cons_pair h a [] o hd tl hl hm hdata]
              have h2 : [hd, tl] = [hd] ++ [tl] := rfl
              rw [h2, markWork_append, hm, hdata]
              simp

/-- The for-loop of `gc_mark_all` is the worklist recursion run on the whole
root stack. -/
theorem foldl_gc_mark (ws : List Addr) (h : Heap) :
    ws.foldl gc_mark h = markWork h ws := by
  induction ws generalizing h with
  | nil => rw [List.foldl_nil, markWork_nil]
  | cons a rest ih =>
      rw [List.foldl_cons, ih, gc_mark, ← markWork_append, List.singleton_append]

theorem gc_mark_all_heap (vm : VM) :
    (gc_mark_all vm).heap = markWork vm.heap vm.stack := by
  simp [gc_mark_all, foldl_gc_mark]

/-! ## Reachability -/

/-- The mark bit of the object at `x` (`false` when `x` is not chained). -/
def markedB (h : Heap) (x : Addr) : Bool :=
  match heapLookup h x with
  | some o => o.mark
  | none => false

/-- One pointer step: `x` is a chained Pair and `y` is its head or tail. -/
def stepR (h : Heap) (x y : Addr) : Prop :=
  ∃ o hd tl, heapLookup h x = some o ∧ o.data = .pair hd tl ∧ (y = hd ∨ y = tl)

/-- One pointer step out of an unmarked Pair: the steps the running mark
phase can still take. -/
def stepU (h : Heap) (x y : Addr) : Prop :=
  ∃ o hd tl, heapLookup h x = some o ∧ o.mark = false ∧ o.data = .pair hd tl ∧
    (y = hd ∨ y = tl)

/-- `x` is transitively reachable from the root `r`. -/
def ReachesFrom (h : Heap) (r x : Addr) : Prop :=
  Relation.ReflTransGen (stepR h) r x

/-- `x` is transitively reachable from the Root Set of `vm`. -/
def Reaches (vm : VM) (x : Addr) : Prop :=
  ∃ r ∈ vm.stack, ReachesFrom vm.heap r x

theorem stepU_of_unmarked {h : Heap} (hm : ∀ p ∈ h, p.2.mark = false) :
    ∀ x y, stepU h x y ↔ stepR h x y := by
  intro x y
  constructor
  · rintro ⟨o, hd, tl, hlx, _, hdata, hy⟩
    exact ⟨o, hd, tl, hlx, hdata, hy⟩
  · rintro ⟨o, hd, tl, hlx, hdata, hy⟩
    refine ⟨o, hd, tl, hlx, ?_, hdata, hy⟩
    have hmem : (x, o) ∈ h := by
      clear hdata hy
      induction h with
      | nil => simp [heapLookup] at hlx
      | cons p rest ih =>
          obtain ⟨b, u⟩ := p
          by_cases hb : b = x
          · subst hb
            simp [heapLookup] at hlx
            subst hlx
            exact List.mem_cons_self _ _
          · simp [heapLookup, hb] at hlx
            exact List.mem_cons_of_mem _ (ih (fun p hp => hm p (List.mem_cons_of_mem _ hp)) hlx)
    exact hm (x, o) hmem

theorem markedB_setMark {h : Heap} {a : Addr} {o : Object}
    (hl : heapLookup h a = some o) (x : Addr) :
    markedB (setMark h a) x = true ↔ (markedB h x = true ∨ x = a) := by
  unfold markedB
  rw [heapLookup_setMark]
  by_cases hx : x = a
  · subst hx
    simp [hl]
  · simp [hx]

theorem isSome_setMark (h : Heap) (a x : Addr) :
    (heapLookup (setMark h a) x).isSome = (heapLookup h x).isSome := by
  rw [heapLookup_setMark]
  by_cases hx : x = a
  · subst hx
    cases heapLookup h x <;> simp
  · simp [hx]

theorem stepU_setMark {h : Heap} {a : Addr} {o : Object}
    (hl : heapLookup h a = some o) (x y : Addr) :
    stepU (setMark h a) x y ↔ (stepU h x y ∧ x ≠ a) := by
  constructor
  · rintro ⟨o', hd, tl, hlx, hm, hdata, hy⟩
    rw [heapLookup_setMark] at hlx
    by_cases hx : x = a
    · rw [if_pos hx, hl] at hlx
      simp at hlx
      rw [← hlx] at hm
      simp at hm
    · rw [if_neg hx] at hlx
      exact ⟨⟨o', hd, tl, hlx, hm, hdata, hy⟩, hx⟩
  · rintro ⟨⟨o', hd, tl, hlx, hm, hdata, hy⟩, hx⟩
    refine ⟨o', hd, tl, ?_, hm, hdata, hy⟩
    rw [heapLookup_setMark, if_neg hx]
    exact hlx

theorem stepU_setMark_int {h : Heap} {a : Addr} {o : Object} {v : Int}
    (hl : heapLookup h a = some o) (hdata : o.data = .int v) (x y : Addr) :
    stepU (setMark h a) x y ↔ stepU h x y := by
  rw [stepU_setMark hl]
  constructor
  · rintro ⟨hs, _⟩
    exact hs
  · intro hs
    refine ⟨hs, ?_⟩
    rintro rfl
    obtain ⟨o', hd', tl', hlx, _, hdata', _⟩ := hs
    rw [hl] at hlx
    cases hlx
    rw [hdata] at hdata'
    cases hdata'

/-- Unmarked-path decomposition: a path that exists before the object at `a`
is marked either survives the marking, or its tail runs from one of the
still-possible successors of `a`. -/
theorem reflTransGen_stepU_setMark {h : Heap} {a : Addr} {o : Object}
    (hl : heapLookup h a = some o) (r x : Addr)
    (hpath : Relation.ReflTransGen (stepU h) r x) :
    Relation.ReflTransGen (stepU (setMark h a)) r x ∨
      ∃ c, stepU h a c ∧ Relation.ReflTransGen (stepU (setMark h a)) c x := by
  induction hpath using Relation.ReflTransGen.head_induction_on with
  | refl => exact Or.inl .refl
  | head hstep _ ih =>
      rcases ih with ih | ih
      · rename_i r' m _
        by_cases hr : r' = a
        · subst hr
          exact Or.inr ⟨m, hstep, ih⟩
        · exact Or.inl (ih.head ((stepU_setMark hl _ _).mpr ⟨hstep, hr⟩))
      · exact Or.inr ih

theorem reflTransGen_stepU_setMark_mono {h : Heap} {a : Addr} {o : Object}
    (hl : heapLookup h a = some o) (r x : Addr)
    (hpath : Relation.ReflTransGen (stepU (setMark h a)) r x) :
    Relation.ReflTransGen (stepU h) r x :=
  hpath.mono (fun _ _ hs => ((stepU_setMark hl _ _).mp hs).1)

theorem markedB_eq {h : Heap} {x : Addr} {o : Object}
    (hl : heapLookup h x = some o) : markedB h x = o.mark := by
  unfold markedB
  rw [hl]

/-- What the mark phase marks: an address ends up marked exactly when it was
already marked, or it is chained and reachable from the worklist along
unmarked objects. -/
theorem markedB_markWork (h : Heap) (ws : List Addr) (x : Addr) :
    markedB (markWork h ws) x = true ↔
      (markedB h x = true ∨
        ((heapLookup h x).isSome = true ∧
          ∃ r ∈ ws, Relation.ReflTransGen (stepU h) r x)) := by
  induction h, ws using markWork.induct generalizing x with
  | case1 h =>
      rw [markWork_nil]
      simp
  | case2 h a rest hl ih =>
      rw [markWork_cons_none h a rest hl, ih]
      constructor
      · rintro (hA | ⟨hS, r, hr, hp⟩)
        · exact Or.inl hA
        · exact Or.inr ⟨hS, r, List.mem_cons_of_mem _ hr, hp⟩
      · rintro (hA | ⟨hS, r, hr, hp⟩)
        · exact Or.inl hA
        · rcases List.mem_cons.mp hr with rfl | hr
          · rcases hp.cases_head with rfl | ⟨c, hstep, _⟩
            · rw [hl] at hS
              simp at hS
            · obtain ⟨o, _, _, hlx, _⟩ := hstep
              rw [hl] at hlx
              cases hlx
          · exact Or.inr ⟨hS, r, hr, hp⟩
  | case3 h a rest o hl hm ih =>
      rw [markWork_cons_marked h a rest o hl hm, ih]
      constructor
      · rintro (hA | ⟨hS, r, hr, hp⟩)
        · exact Or.inl hA
        · exact Or.inr ⟨hS, r, List.mem_cons_of_mem _ hr, hp⟩
      · rintro (hA | ⟨hS, r, hr, hp⟩)
        · exact Or.inl hA
        · rcases List.mem_cons.mp hr with rfl | hr
          · rcases hp.cases_head with rfl | ⟨c, hstep, _⟩
            · exact Or.inl (by rw [markedB_eq hl, hm])
            · obtain ⟨o', _, _, hlx, hm', _⟩ := hstep
              rw [hl] at hlx
              cases hlx
              rw [hm] at hm'
              cases hm'
          · exact Or.inr ⟨hS, r, hr, hp⟩
  | case4 h a rest o hl hm v hv ih =>
      have hm' : o.mark = false := by simpa using hm
      rw [markWork_cons_int h a rest o v hl hm' hv, ih]
      have hrel : ∀ p q, stepU (setMark h a) p q ↔ stepU h p q :=
        stepU_setMark_int hl hv
      constructor
      · rintro (hA | ⟨hS, r, hr, hp⟩)
        · rcases (markedB_setMark hl x).mp hA with hA | rfl
          · exact Or.inl hA
          · refine Or.inr ⟨by simp [hl], x, List.mem_cons_self _ _, .refl⟩
        · rw [isSome_setMark] at hS
          exact Or.inr ⟨hS, r, List.mem_cons_of_mem _ hr,
            hp.mono (fun p q hs => (hrel p q).mp hs)⟩
      · rintro (hA | ⟨hS, r, hr, hp⟩)
        · exact Or.inl ((markedB_setMark hl x).mpr (Or.inl hA))
        · rcases List.mem_cons.mp hr with rfl | hr
          · rcases hp.cases_head with rfl | ⟨c, hstep, _⟩
            · exact Or.inl ((markedB_setMark hl _).mpr (Or.inr rfl))
            · obtain ⟨o', _, _, hlx, _, hv', _⟩ := hstep
              rw [hl] at hlx
              cases hlx
              rw [hv] at hv'
              cases hv'
          · refine Or.inr ⟨by rw [isSome_setMark]; exact hS, r, hr,
              hp.mono (fun p q hs => (hrel p q).mpr hs)⟩
  | case5 h a rest o hl hm hd tl hp ih =>
      have hm' : o.mark = false := by simpa using hm
      rw [markWork_cons_pair h a rest o hd tl hl hm' hp, ih]
      have hstep_hd : stepU h a hd := ⟨o, hd, tl, hl, hm', hp, Or.inl rfl⟩
      have hstep_tl : stepU h a tl := ⟨o, hd, tl, hl, hm', hp, Or.inr rfl⟩
      constructor
      · rintro (hA | ⟨hS, r, hr, hpath⟩)
        · rcases (markedB_setMark hl x).mp hA with hA | rfl
          · exact Or.inl hA
          · exact Or.inr ⟨by simp [hl], x, List.mem_cons_self _ _, .refl⟩
        · rw [isSome_setMark] at hS
          have hpath' := reflTransGen_stepU_setMark_mono hl r x hpath
          rcases List.mem_cons.mp hr with rfl | hr
          · exact Or.inr ⟨hS, a, List.mem_cons_self _ _, hpath'.head hstep_hd⟩
          · rcases List.mem_cons.mp hr with rfl | hr
            · exact Or.inr ⟨hS, a, List.mem_cons_self _ _, hpath'.head hstep_tl⟩
            · exact Or.inr ⟨hS, r, List.mem_cons_of_mem _ hr, hpath'⟩
      · rintro (hA | ⟨hS, r, hr, hpath⟩)
        · exact Or.inl ((markedB_setMark hl x).mpr (Or.inl hA))
        · have hS' : (heapLookup (setMark h a) x).isSome = true := by
            rw [isSome_setMark]
            exact hS
          rcases List.mem_cons.mp hr with rfl | hr
          · rcases reflTransGen_stepU_setMark hl _ _ hpath with hgood | ⟨c, hstep, hrest⟩
            · rcases hgood.cases_head with rfl | ⟨c, hstep, _⟩
              · exact Or.inl ((markedB_setMark hl _).mpr (Or.inr rfl))
              · exact absurd rfl ((stepU_setMark hl _ _).mp hstep).2
            · obtain ⟨o', hd', tl', hlx, _, hp', hc⟩ := hstep
              rw [hl] at hlx
              cases hlx
              rw [hp] at hp'
              cases hp'
              rcases hc with rfl | rfl
              · exact Or.inr ⟨hS', c, List.mem_cons_self _ _, hrest⟩
              · exact Or.inr ⟨hS', c,
                  List.mem_cons_of_mem _ (List.mem_cons_self _ _), hrest⟩
          · rcases reflTransGen_stepU_setMark hl _ _ hpath with hgood | ⟨c, hstep, hrest⟩
            · exact Or.inr ⟨hS', r,
                List.mem_cons_of_mem _ (List.mem_cons_of_mem _ hr), hgood⟩
            · obtain ⟨o', hd', tl', hlx, _, hp', hc⟩ := hstep
              rw [hl] at hlx
              cases hlx
              rw [hp] at hp'
              cases hp'
              rcases hc with rfl | rfl
              · exact Or.inr ⟨hS', c, List.mem_cons_self _ _, hrest⟩
              · exact Or.inr ⟨hS', c,
                  List.mem_cons_of_mem _ (List.mem_cons_self _ _), hrest⟩

/-! ## Lookup and membership -/

theorem heapLookup_mem {h : Heap} {x : Addr} {o : Object}
    (hl : heapLookup h x = some o) : (x, o) ∈ h := by
  induction h with
  | nil => simp [heapLookup] at hl
  | cons p rest ih =>
      obtain ⟨b, u⟩ := p
      by_cases hb : b = x
      · subst hb
        simp [heapLookup] at hl
        subst hl
        exact List.mem_cons_self _ _
      · simp [heapLookup, hb] at hl
        exact List.mem_cons_of_mem _ (ih hl)

theorem heapLookup_eq_none {h : Heap} {x : Addr} (hx : x ∉ h.map Prod.fst) :
    heapLookup h x = none := by
  induction h with
  | nil => rfl
  | cons p rest ih =>
      obtain ⟨b, u⟩ := p
      simp only [List.map_cons, List.mem_cons] at hx
      push_neg at hx
      simp [heapLookup, Ne.symm hx.1, ih hx.2]

theorem mem_heapLookup {h : Heap} {x : Addr} {o : Object}
    (hn : (h.map Prod.fst).Nodup) (hm : (x, o) ∈ h) : heapLookup h x = some o := by
  induction h with
  | nil => simp at hm
  | cons p rest ih =>
      obtain ⟨b, u⟩ := p
      simp only [List.map_cons, List.nodup_cons] at hn
      rcases List.mem_cons.mp hm with he | hm'
      · cases he
        simp [heapLookup]
      · have hbx : b ≠ x := by
          rintro rfl
          exact hn.1 (List.mem_map_of_mem Prod.fst hm')
        simp [heapLookup, hbx, ih hn.2 hm']

theorem marks_lookup {h : Heap} {x : Addr} {o : Object}
    (hm : ∀ p ∈ h, p.2.mark = false) (hl : heapLookup h x = some o) :
    o.mark = false :=
  hm (x, o) (heapLookup_mem hl)

theorem markedB_false_of_unmarked {h : Heap} (hm : ∀ p ∈ h, p.2.mark = false)
    (x : Addr) : markedB h x = false := by
  unfold markedB
  cases hl : heapLookup h x with
  | none => rfl
  | some o => exact marks_lookup hm hl

/-! ## Sweep lemmas -/

theorem sweepChain_marks (h : Heap) : ∀ p ∈ sweepChain h, p.2.mark = false := by
  induction h with
  | nil => simp [sweepChain]
  | cons p rest ih =>
      obtain ⟨a, o⟩ := p
      intro q hq
      cases hm : o.mark
      · simp only [sweepChain, hm, Bool.false_eq_true, if_false] at hq
        exact ih q hq
      · simp only [sweepChain, hm, if_true] at hq
        rcases List.mem_cons.mp hq with rfl | hq
        · rfl
        · exact ih q hq

theorem sweepChain_length_le (h : Heap) : (sweepChain h).length ≤ h.length := by
  induction h with
  | nil => simp [sweepChain]
  | cons p rest ih =>
      obtain ⟨a, o⟩ := p
      cases hm : o.mark <;> simp [sweepChain, hm] <;> omega

theorem sweepChain_fst_sublist (h : Heap) :
    ((sweepChain h).map Prod.fst).Sublist (h.map Prod.fst) := by
  induction h with
  | nil => simp [sweepChain]
  | cons p rest ih =>
      obtain ⟨a, o⟩ := p
      cases hm : o.mark
      · simp only [sweepChain, hm, Bool.false_eq_true, if_false, List.map_cons]
        exact ih.cons _
      · simp only [sweepChain, hm, if_true, List.map_cons]
        exact ih.cons₂ _

theorem sweepChain_nodup {h : Heap} (hn : (h.map Prod.fst).Nodup) :
    ((sweepChain h).map Prod.fst).Nodup :=
  hn.sublist (sweepChain_fst_sublist h)

theorem heapLookup_sweepChain {h : Heap} (hn : (h.map Prod.fst).Nodup) (x : Addr) :
    heapLookup (sweepChain h) x =
      match heapLookup h x with
      | some o => if o.mark then some { o with mark := false } else none
      | none => none := by
  induction h with
  | nil => simp [sweepChain, heapLookup]
  | cons p rest ih =>
      obtain ⟨b, o⟩ := p
      simp only [List.map_cons, List.nodup_cons] at hn
      by_cases hbx : b = x
      · subst hbx
        cases hm : o.mark with
        | true => simp [sweepChain, heapLookup, hm]
        | false =>
            have hnone : heapLookup (sweepChain rest) b = none := by
              apply heapLookup_eq_none
              intro hmem
              exact hn.1 ((sweepChain_fst_sublist rest).mem hmem)
            simp [sweepChain, heapLookup, hm, hnone]
      · cases hm : o.mark with
        | true => simp [sweepChain, heapLookup, hm, hbx, ih hn.2]
        | false => simp [sweepChain, heapLookup, hm, hbx, ih hn.2]

theorem sweepChain_all_marked {h : Heap} (hm : ∀ p ∈ h, p.2.mark = true) :
    sweepChain h = h.map (fun p => (p.1, { p.2 with mark := false })) := by
  induction h with
  | nil => rfl
  | cons p rest ih =>
      obtain ⟨a, o⟩ := p
      have hmo : o.mark = true := hm (a, o) (List.mem_cons_self _ _)
      simp [sweepChain, hmo, ih (fun p hp => hm p (List.mem_cons_of_mem _ hp))]

/-- Two chains with the same addresses and payloads and all marks clear are
equal. -/
theorem heap_ext_of_shape {h₁ h₂ : Heap} (hs : h₁.map eShape = h₂.map eShape)
    (hm₁ : ∀ p ∈ h₁, p.2.mark = false) (hm₂ : ∀ p ∈ h₂, p.2.mark = false) :
    h₁ = h₂ := by
  induction h₁ generalizing h₂ with
  | nil =>
      cases h₂ with
      | nil => rfl
      | cons q t => simp at hs
  | cons p t ih =>
      cases h₂ with
      | nil => simp at hs
      | cons q t₂ =>
          obtain ⟨b, o⟩ := p
          obtain ⟨c, u⟩ := q
          simp only [List.map_cons, List.cons.injEq, eShape, Prod.mk.injEq] at hs
          obtain ⟨⟨hbc, hdata⟩, hrest⟩ := hs
          subst hbc
          have ho : o = u := by
            have h1 : o.mark = false := hm₁ (b, o) (List.mem_cons_self _ _)
            have h2 : u.mark = false := hm₂ (b, u) (List.mem_cons_self _ _)
            cases o
            cases u
            simp_all
          subst ho
          rw [ih hrest (fun p hp => hm₁ p (List.mem_cons_of_mem _ hp))
            (fun p hp => hm₂ p (List.mem_cons_of_mem _ hp))]

/-! ## Well-formed VM states -/

/-- The pair payload of `o` (if any) points into the chain `h`. -/
def pairClosedB (h : Heap) (o : Object) : Bool :=
  match o.data with
  | .int _ => true
  | .pair hd tl => (heapLookup h hd).isSome && (heapLookup h tl).isSome

/-- A well-formed VM state: distinct addresses, an accurate `object_num`,
all marks clear outside a running collection, roots and pair fields pointing
into the chain, all chained addresses below the allocation counter, and the
stack within its capacity. -/
def WF (vm : VM) : Prop :=
  (vm.heap.map Prod.fst).Nodup ∧
  vm.object_num = vm.heap.length ∧
  (∀ p ∈ vm.heap, p.2.mark = false) ∧
  (∀ a ∈ vm.stack, (heapLookup vm.heap a).isSome = true) ∧
  (∀ p ∈ vm.heap, pairClosedB vm.heap p.2 = true) ∧
  (∀ p ∈ vm.heap, p.1 < vm.nextAddr) ∧
  vm.stack.length ≤ STACK_MAX

instance (vm : VM) : Decidable (WF vm) := by
  unfold WF
  infer_instance

theorem Reaches_isSome {vm : VM} (hwf : WF vm) {x : Addr} (hx : Reaches vm x) :
    (heapLookup vm.heap x).isSome = true := by
  obtain ⟨_, _, _, hstack, hpairs, _, _⟩ := hwf
  obtain ⟨r, hr, hpath⟩ := hx
  induction hpath with
  | refl => exact hstack r hr
  | tail _ hstep ih =>
      obtain ⟨o, hd, tl, hlm, hdata, hy⟩ := hstep
      have hmem := heapLookup_mem hlm
      have hcl := hpairs _ hmem
      rw [pairClosedB, hdata] at hcl
      simp only [Bool.and_eq_true] at hcl
      rcases hy with rfl | rfl
      · exact hcl.1
      · exact hcl.2

/-! ## The collection cycle -/

theorem markWork_length (h : Heap) (ws : List Addr) :
    (markWork h ws).length = h.length := by
  have hs := congrArg List.length (markWork_shape h ws)
  simpa using hs

theorem markWork_fst (h : Heap) (ws : List Addr) :
    (markWork h ws).map Prod.fst = h.map Prod.fst :=
  shape_fst (markWork_shape h ws)

theorem gc_zero {vm : VM} (h : vm.object_num = 0) : gc vm = vm := by
  simp [gc, h]

theorem gc_stack_eq (vm : VM) : (gc vm).stack = vm.stack := by
  unfold gc
  by_cases h : vm.object_num = 0 <;> simp [h, gc_sweep, gc_mark_all]

theorem gc_nextAddr_eq (vm : VM) : (gc vm).nextAddr = vm.nextAddr := by
  unfold gc
  by_cases h : vm.object_num = 0 <;> simp [h, gc_sweep, gc_mark_all]

theorem gc_num_le (vm : VM) : (gc vm).object_num ≤ vm.object_num := by
  unfold gc
  by_cases h : vm.object_num = 0 <;> simp [h, gc_sweep, gc_mark_all]

theorem gc_heap_eq {vm : VM} (h : vm.object_num ≠ 0) :
    (gc vm).heap = sweepChain (markWork vm.heap vm.stack) := by
  simp [gc, h, gc_sweep, gc_mark_all_heap]

theorem gc_num_def {vm : VM} (h : vm.object_num ≠ 0) :
    (gc vm).object_num = vm.object_num -
      ((markWork vm.heap vm.stack).length -
        (sweepChain (markWork vm.heap vm.stack)).length) := by
  simp [gc, h, gc_sweep, gc_mark_all, foldl_gc_mark]

theorem gc_max_def {vm : VM} (h : vm.object_num ≠ 0) :
    (gc vm).object_max =
      if (gc vm).object_num ≠ 0 then (gc vm).object_num * 2
      else GC_INITIAL_THRESHOLD := by
  simp [gc, h, gc_sweep, gc_mark_all]

theorem isSome_sweepChain {h : Heap} (hn : (h.map Prod.fst).Nodup) (x : Addr) :
    (heapLookup (sweepChain h) x).isSome = markedB h x := by
  rw [heapLookup_sweepChain hn]
  unfold markedB
  cases heapLookup h x with
  | none => rfl
  | some o => cases hm : o.mark <;> simp [hm]

theorem gc_lookup_isSome_iff {vm : VM} (hwf : WF vm) (x : Addr) :
    (heapLookup (gc vm).heap x).isSome = true ↔ Reaches vm x := by
  obtain ⟨hn, hnum, hmk, hst, hpr, hfr, hcap⟩ := hwf
  by_cases h0 : vm.object_num = 0
  · have hheap : vm.heap = [] := by
      rw [h0] at hnum
      exact List.length_eq_zero.mp hnum.symm
    have hid : gc vm = vm := by simp [gc, h0]
    rw [hid, hheap]
    constructor
    · intro hx
      simp [heapLookup] at hx
    · rintro ⟨r, hr, _⟩
      have hs := hst r hr
      rw [hheap] at hs
      simp [heapLookup] at hs
  · have hn1 : ((markWork vm.heap vm.stack).map Prod.fst).Nodup := by
      rw [markWork_fst]
      exact hn
    have hcong : ∀ r, Relation.ReflTransGen (stepU vm.heap) r x ↔
        Relation.ReflTransGen (stepR vm.heap) r x := fun r =>
      ⟨fun p => p.mono (fun a b hs => (stepU_of_unmarked hmk a b).mp hs),
       fun p => p.mono (fun a b hs => (stepU_of_unmarked hmk a b).mpr hs)⟩
    rw [gc_heap_eq h0, isSome_sweepChain hn1, markedB_markWork]
    simp only [markedB_false_of_unmarked hmk, Bool.false_eq_true, false_or]
    constructor
    · rintro ⟨hS, r, hr, hp⟩
      exact ⟨r, hr, (hcong r).mp hp⟩
    · intro hR
      refine ⟨Reaches_isSome ⟨hn, hnum, hmk, hst, hpr, hfr, hcap⟩ hR, ?_⟩
      obtain ⟨r, hr, hp⟩ := hR
      exact ⟨r, hr, (hcong r).mpr hp⟩

theorem heapLookup_sweepChain_none {h : Heap} (hn : (h.map Prod.fst).Nodup)
    {x : Addr} (he : heapLookup h x = none) :
    heapLookup (sweepChain h) x = none := by
  rw [heapLookup_sweepChain hn, he]

theorem heapLookup_sweepChain_some {h : Heap} (hn : (h.map Prod.fst).Nodup)
    {x : Addr} {o1 : Object} (he : heapLookup h x = some o1) :
    heapLookup (sweepChain h) x =
      if o1.mark then some { o1 with mark := false } else none := by
  rw [heapLookup_sweepChain hn, he]

theorem gc_lookup_some {vm : VM} (hwf : WF vm) {x : Addr} {o : Object}
    (hl : heapLookup (gc vm).heap x = some o) :
    heapLookup vm.heap x = some o ∧ o.mark = false := by
  obtain ⟨hn, hnum, hmk, hst, hpr, hfr, hcap⟩ := hwf
  by_cases h0 : vm.object_num = 0
  · have hid : gc vm = vm := by simp [gc, h0]
    rw [hid] at hl
    exact ⟨hl, marks_lookup hmk hl⟩
  · have hn1 : ((markWork vm.heap vm.stack).map Prod.fst).Nodup := by
      rw [markWork_fst]
      exact hn
    rw [gc_heap_eq h0] at hl
    have hdata := shape_lookup (markWork_shape vm.heap vm.stack) x
    cases he : heapLookup (markWork vm.heap vm.stack) x with
    | none =>
        rw [heapLookup_sweepChain_none hn1 he] at hl
        cases hl
    | some o1 =>
        rw [heapLookup_sweepChain_some hn1 he] at hl
        cases hm1 : o1.mark with
        | false =>
            rw [if_neg (by simp [hm1])] at hl
            cases hl
        | true =>
            rw [if_pos hm1] at hl
            injection hl with hl2
            subst hl2
            rw [he] at hdata
            cases he0 : heapLookup vm.heap x with
            | none => rw [he0] at hdata; simp at hdata
            | some o0 =>
                rw [he0] at hdata
                simp at hdata
                have hm0 : o0.mark = false := marks_lookup hmk he0
                have ho : o0 = { o1 with mark := false } := by
                  cases o0
                  simp_all
                exact ⟨by rw [ho], rfl⟩

theorem gc_num_len {vm : VM} (hwf : WF vm) :
    (gc vm).object_num = (gc vm).heap.length := by
  obtain ⟨hn, hnum, hmk, hst, hpr, hfr, hcap⟩ := hwf
  by_cases h0 : vm.object_num = 0
  · have hid : gc vm = vm := by simp [gc, h0]
    rw [hid]
    exact hnum
  · rw [gc_heap_eq h0, gc_num_def h0]
    have hlen := markWork_length vm.heap vm.stack
    have hle := sweepChain_length_le (markWork vm.heap vm.stack)
    omega

theorem gc_nodup {vm : VM} (hwf : WF vm) :
    (((gc vm).heap).map Prod.fst).Nodup := by
  by_cases h0 : vm.object_num = 0
  · have hid : gc vm = vm := by simp [gc, h0]
    rw [hid]
    exact hwf.1
  · rw [gc_heap_eq h0]
    apply sweepChain_nodup
    rw [markWork_fst]
    exact hwf.1

theorem gc_marks {vm : VM} (hwf : WF vm) :
    ∀ p ∈ (gc vm).heap, p.2.mark = false := by
  by_cases h0 : vm.object_num = 0
  · have hid : gc vm = vm := by simp [gc, h0]
    rw [hid]
    exact hwf.2.2.1
  · rw [gc_heap_eq h0]
    exact sweepChain_marks _

theorem WF_gc {vm : VM} (hwf : WF vm) : WF (gc vm) := by
  refine ⟨gc_nodup hwf, gc_num_len hwf, gc_marks hwf, ?_, ?_, ?_, ?_⟩
  · intro a ha
    rw [gc_stack_eq] at ha
    exact (gc_lookup_isSome_iff hwf a).mpr ⟨a, ha, .refl⟩
  · intro p hp
    have hl' : heapLookup (gc vm).heap p.1 = some p.2 :=
      mem_heapLookup (gc_nodup hwf) hp
    obtain ⟨hl0, _⟩ := gc_lookup_some hwf hl'
    have hreach : Reaches vm p.1 := (gc_lookup_isSome_iff hwf p.1).mp (by
      rw [hl']
      rfl)
    unfold pairClosedB
    cases hdp : p.2.data with
    | int v => rfl
    | pair c d =>
        obtain ⟨r, hr, hpath⟩ := hreach
        have hc : Reaches vm c :=
          ⟨r, hr, hpath.tail ⟨p.2, c, d, hl0, hdp, Or.inl rfl⟩⟩
        have hd : Reaches vm d :=
          ⟨r, hr, hpath.tail ⟨p.2, c, d, hl0, hdp, Or.inr rfl⟩⟩
        have h1 := (gc_lookup_isSome_iff hwf c).mpr hc
        have h2 := (gc_lookup_isSome_iff hwf d).mpr hd
        simp [h1, h2]
  · intro p hp
    have hl' : heapLookup (gc vm).heap p.1 = some p.2 :=
      mem_heapLookup (gc_nodup hwf) hp
    obtain ⟨hl0, _⟩ := gc_lookup_some hwf hl'
    rw [gc_nextAddr_eq]
    exact hwf.2.2.2.2.2.1 (p.1, p.2) (heapLookup_mem hl0)
  · rw [gc_stack_eq]
    exact hwf.2.2.2.2.2.2

/-! ## Stack operations -/

theorem vm_push_none_iff (vm : VM) (v : Addr) :
    vm_push vm v = none ↔ ¬ vm.stack.length < STACK_MAX := by
  unfold vm_push
  by_cases hlen : vm.stack.length < STACK_MAX <;> simp [hlen]

theorem vm_push_some {vm : VM} (v : Addr)
    (hlen : vm.stack.length < STACK_MAX) :
    vm_push vm v = some { vm with stack := vm.stack ++ [v] } := by
  unfold vm_push
  rw [if_pos hlen]

theorem vm_pop_none_iff (vm : VM) : vm_pop vm = none ↔ vm.stack = [] := by
  unfold vm_pop
  cases hg : vm.stack.getLast? with
  | none => simp [List.getLast?_eq_none_iff.mp hg]
  | some v =>
      simp only []
      constructor
      · intro h
        cases h
      · intro h
        rw [h] at hg
        simp at hg

theorem vm_pop_concat {vm : VM} {rest : List Addr} {x : Addr}
    (hs : vm.stack = rest ++ [x]) :
    vm_pop vm = some ({ vm with stack := rest }, x) := by
  unfold vm_pop
  rw [hs]
  simp [List.getLast?_concat, List.dropLast_concat]

theorem vm_pop_some {vm vm' : VM} {a : Addr} (h : vm_pop vm = some (vm', a)) :
    vm' = { vm with stack := vm.stack.dropLast } ∧
      vm.stack.getLast? = some a := by
  unfold vm_pop at h
  cases hg : vm.stack.getLast? with
  | none => rw [hg] at h; cases h
  | some v =>
      rw [hg] at h
      injection h with h2
      cases h2
      exact ⟨rfl, rfl⟩

/-! ## The allocation-threshold invariant -/

/-- The counter invariant of every reachable state: a positive threshold,
the live count never above it, and the threshold back at the initial floor
whenever the heap is empty. -/
def Inv (vm : VM) : Prop :=
  0 < vm.object_max ∧ vm.object_num ≤ vm.object_max ∧
    (vm.object_num = 0 → vm.object_max = GC_INITIAL_THRESHOLD)

theorem Inv_gc {vm : VM} (hinv : Inv vm) : Inv (gc vm) := by
  by_cases h0 : vm.object_num = 0
  · have hid : gc vm = vm := by simp [gc, h0]
    rw [hid]
    exact hinv
  · have hmax := gc_max_def h0
    by_cases h1 : (gc vm).object_num = 0
    · rw [h1] at hmax
      simp at hmax
      refine ⟨?_, ?_, fun _ => hmax⟩
      · rw [hmax]
        norm_num [GC_INITIAL_THRESHOLD]
      · rw [h1]
        omega
    · rw [if_pos h1] at hmax
      exact ⟨by omega, by omega, fun hc => absurd hc h1⟩

/-- After the trigger check of `new_object` there is always room for the
new object below the threshold. -/
theorem trigger_room {vm : VM} (hinv : Inv vm) :
    (if vm.object_num = vm.object_max then gc vm else vm).object_num + 1 ≤
      (if vm.object_num = vm.object_max then gc vm else vm).object_max ∧
    0 < (if vm.object_num = vm.object_max then gc vm else vm).object_max := by
  by_cases he : vm.object_num = vm.object_max
  · rw [if_pos he]
    have h0 : vm.object_num ≠ 0 := by
      intro h
      have h1 := hinv.1
      omega
    have hmax := gc_max_def h0
    refine ⟨?_, (Inv_gc hinv).1⟩
    by_cases h1 : (gc vm).object_num = 0
    · rw [h1] at hmax
      simp at hmax
      rw [h1, hmax]
      norm_num [GC_INITIAL_THRESHOLD]
    · rw [if_pos h1] at hmax
      omega
  · rw [if_neg he]
    obtain ⟨h1, h2, _⟩ := hinv
    exact ⟨by omega, h1⟩

theorem Inv_new_object {vm : VM} (hinv : Inv vm) (d : ObjData) :
    Inv (new_object vm d).1 := by
  obtain ⟨hroom, hpos⟩ := trigger_room hinv
  unfold new_object alloc_object
  exact ⟨hpos, hroom, by simp⟩

theorem Inv_push_int {vm vm' : VM} {v : Int} {a : Addr}
    (hinv : Inv vm) (h : vm_push_int vm v = some (vm', a)) : Inv vm' := by
  unfold vm_push_int at h
  dsimp only at h
  cases hp : vm_push (new_object vm (.int v)).1 (new_object vm (.int v)).2 with
  | none => rw [hp] at h; cases h
  | some w =>
      rw [hp] at h
      injection h with h2
      cases h2
      unfold vm_push at hp
      by_cases hlen : (new_object vm (.int v)).1.stack.length < STACK_MAX
      · rw [if_pos hlen] at hp
        injection hp with hp2
        rw [← hp2]
        exact Inv_new_object hinv (ObjData.int v)
      · rw [if_neg hlen] at hp
        cases hp

theorem Inv_pop {vm vm' : VM} {a : Addr} (hinv : Inv vm)
    (h : vm_pop vm = some (vm', a)) : Inv vm' := by
  obtain ⟨rfl, -⟩ := vm_pop_some h
  exact hinv

theorem Inv_push_pair {vm vm' : VM} {a : Addr} (hinv : Inv vm)
    (h : vm_push_pair vm = some (vm', a)) : Inv vm' := by
  obtain ⟨hroom, hpos⟩ := trigger_room hinv
  unfold vm_push_pair at h
  dsimp only at h
  cases h1 : vm_pop (if vm.object_num = vm.object_max then gc vm else vm) with
  | none => rw [h1] at h; cases h
  | some p1 =>
      obtain ⟨vm1, tl⟩ := p1
      rw [h1] at h
      dsimp only at h
      cases h2 : vm_pop vm1 with
      | none => rw [h2] at h; cases h
      | some p2 =>
          obtain ⟨vm2, hd⟩ := p2
          rw [h2] at h
          dsimp only at h
          obtain ⟨he1, -⟩ := vm_pop_some h1
          obtain ⟨he2, -⟩ := vm_pop_some h2
          have hnum2 : vm2.object_num =
              (if vm.object_num = vm.object_max then gc vm else vm).object_num := by
            rw [he2, he1]
          have hmax2 : vm2.object_max =
              (if vm.object_num = vm.object_max then gc vm else vm).object_max := by
            rw [he2, he1]
          cases h3 : vm_push (alloc_object vm2 (.pair hd tl)).1
              (alloc_object vm2 (.pair hd tl)).2 with
          | none => rw [h3] at h; cases h
          | some w =>
              rw [h3] at h
              injection h with h4
              cases h4
              unfold vm_push at h3
              by_cases hlen : (alloc_object vm2 (.pair hd tl)).1.stack.length <
                  STACK_MAX
              · rw [if_pos hlen] at h3
                injection h3 with h5
                rw [← h5]
                dsimp only [alloc_object]
                refine ⟨?_, ?_, fun hc => absurd hc (Nat.succ_ne_zero _)⟩
                · rw [hmax2]
                  exact hpos
                · rw [hnum2, hmax2]
                  exact hroom
              · rw [if_neg hlen] at h3
                cases h3

/-- The states produced from `new_vm` by the public mutator operations and
explicit collection calls. -/
inductive ReachableVM : VM → Prop where
  | init : ReachableVM new_vm
  | push_int (vm vm' : VM) (v : Int) (a : Addr) : ReachableVM vm →
      vm_push_int vm v = some (vm', a) → ReachableVM vm'
  | push_pair (vm vm' : VM) (a : Addr) : ReachableVM vm →
      vm_push_pair vm = some (vm', a) → ReachableVM vm'
  | pop (vm vm' : VM) (a : Addr) : ReachableVM vm →
      vm_pop vm = some (vm', a) → ReachableVM vm'
  | gc_step (vm : VM) : ReachableVM vm → ReachableVM (gc vm)

theorem Inv_reachable {vm : VM} (hr : ReachableVM vm) : Inv vm := by
  induction hr with
  | init => exact ⟨by norm_num [new_vm, GC_INITIAL_THRESHOLD], by
      norm_num [new_vm], fun _ => rfl⟩
  | push_int vm vm' v a _ hop ih => exact Inv_push_int ih hop
  | push_pair vm vm' a _ hop ih => exact Inv_push_pair ih hop
  | pop vm vm' a _ hop ih => exact Inv_pop ih hop
  | gc_step vm _ ih => exact Inv_gc ih

/-! ## Idempotence of the collection cycle -/

theorem VM.ext' {v w : VM} (h1 : v.heap = w.heap) (h2 : v.object_num = w.object_num)
    (h3 : v.object_max = w.object_max) (h4 : v.stack = w.stack)
    (h5 : v.nextAddr = w.nextAddr) : v = w := by
  cases v
  cases w
  simp_all

theorem resetMarks_shape (l : Heap) :
    (l.map (fun p => (p.1, { p.2 with mark := false }))).map eShape =
      l.map eShape := by
  induction l with
  | nil => rfl
  | cons p t ih => simp [eShape, ih]

theorem Reaches_gc {vm : VM} (hwf : WF vm) {x : Addr} (hx : Reaches vm x) :
    Reaches (gc vm) x := by
  obtain ⟨r, hr, hpath⟩ := hx
  refine ⟨r, by rw [gc_stack_eq]; exact hr, ?_⟩
  induction hpath with
  | refl => exact .refl
  | tail hsteps hstep ih =>
      rename_i m y
      obtain ⟨o, c, d, hlm, hdata, hy⟩ := hstep
      have hm_reach : Reaches vm m := ⟨r, hr, hsteps⟩
      have hsm : (heapLookup (gc vm).heap m).isSome = true :=
        (gc_lookup_isSome_iff hwf m).mpr hm_reach
      obtain ⟨o', ho'⟩ := Option.isSome_iff_exists.mp hsm
      obtain ⟨hvo, -⟩ := gc_lookup_some hwf ho'
      have hoo : o' = o := by
        rw [hvo] at hlm
        injection hlm
      refine ih.tail ⟨o', c, d, ho', ?_, hy⟩
      rw [hoo]
      exact hdata

theorem gc_gc {vm : VM} (hwf : WF vm) : gc (gc vm) = gc vm := by
  by_cases h1 : (gc vm).object_num = 0
  · exact gc_zero h1
  · have hwf' := WF_gc hwf
    have h0 : vm.object_num ≠ 0 := by
      intro hz
      have hid : gc vm = vm := by simp [gc, hz]
      rw [hid] at h1
      exact h1 hz
    have hn1 : ((markWork (gc vm).heap (gc vm).stack).map Prod.fst).Nodup := by
      rw [markWork_fst]
      exact hwf'.1
    have hall : ∀ p ∈ markWork (gc vm).heap (gc vm).stack, p.2.mark = true := by
      intro p hp
      have hl : heapLookup (markWork (gc vm).heap (gc vm).stack) p.1 = some p.2 :=
        mem_heapLookup hn1 hp
      have hs0 : (heapLookup (gc vm).heap p.1).isSome = true := by
        rw [← shape_lookup_isSome (markWork_shape (gc vm).heap (gc vm).stack) p.1,
          hl]
        rfl
      have hmarked : markedB (markWork (gc vm).heap (gc vm).stack) p.1 = true := by
        rw [markedB_markWork]
        have hreach' : Reaches (gc vm) p.1 :=
          Reaches_gc hwf ((gc_lookup_isSome_iff hwf p.1).mp hs0)
        obtain ⟨r, hr, hpath⟩ := hreach'
        exact Or.inr ⟨hs0, r, hr, hpath.mono
          (fun a b hs => (stepU_of_unmarked (gc_marks hwf) a b).mpr hs)⟩
      rw [markedB_eq hl] at hmarked
      exact hmarked
    have hsweep : sweepChain (markWork (gc vm).heap (gc vm).stack) = (gc vm).heap := by
      rw [sweepChain_all_marked hall]
      apply heap_ext_of_shape
      · rw [resetMarks_shape, markWork_shape]
      · intro p hp
        obtain ⟨q, -, rfl⟩ := List.mem_map.mp hp
        rfl
      · exact gc_marks hwf
    have hnum_eq : (gc (gc vm)).object_num = (gc vm).object_num := by
      have l1 := markWork_length (gc vm).heap (gc vm).stack
      have l2 := congrArg List.length hsweep
      rw [gc_num_def h1, hsweep]
      omega
    apply VM.ext'
    · rw [gc_heap_eq h1, hsweep]
    · exact hnum_eq
    · rw [gc_max_def h1, hnum_eq, if_pos h1, gc_max_def h0, if_pos h1]
    · exact gc_stack_eq (gc vm)
    · exact gc_nextAddr_eq (gc vm)

/-! ## Teardown -/

theorem sweepChain_all_unmarked {h : Heap} (hm : ∀ p ∈ h, p.2.mark = false) :
    sweepChain h = [] := by
  induction h with
  | nil => rfl
  | cons p rest ih =>
      obtain ⟨a, o⟩ := p
      have hmo : o.mark = false := hm (a, o) (List.mem_cons_self _ _)
      simp [sweepChain, hmo,
        ih (fun p hp => hm p (List.mem_cons_of_mem _ hp))]

theorem free_vm_heap_empty {vm : VM} (hwf : WF vm) :
    (free_vm vm).heap = [] ∧ (free_vm vm).object_num = 0 := by
  obtain ⟨hn, hnum, hmk, hst, hpr, hfr, hcap⟩ := hwf
  unfold free_vm
  by_cases h0 : vm.object_num = 0
  · have hid : gc { vm with stack := ([] : List Addr) } =
        { vm with stack := ([] : List Addr) } := by
      simp [gc, h0]
    rw [hid]
    refine ⟨?_, h0⟩
    rw [h0] at hnum
    exact List.length_eq_zero.mp hnum.symm
  · have hnz : ({ vm with stack := ([] : List Addr) } : VM).object_num ≠ 0 := h0
    have hheap : (gc { vm with stack := ([] : List Addr) }).heap = [] := by
      rw [gc_heap_eq hnz]
      show sweepChain (markWork vm.heap []) = []
      rw [markWork_nil]
      exact sweepChain_all_unmarked hmk
    refine ⟨hheap, ?_⟩
    have hwf0 : WF { vm with stack := ([] : List Addr) } := by
      refine ⟨hn, hnum, hmk, ?_, hpr, hfr, ?_⟩
      · intro a ha
        cases ha
      · simp [STACK_MAX]
    have := gc_num_len hwf0
    rw [hheap] at this
    simpa using this

/-! ## Concrete states used by the witnesses -/

/-- A chained pair of two ints, with the pair rooted. -/
def vmA : VM :=
  { heap := [(2, ⟨false, .pair 0 1⟩), (1, ⟨false, .int 2⟩), (0, ⟨false, .int 1⟩)],
    object_num := 3, object_max := 8, stack := [2], nextAddr := 3 }

/-- Two rooted ints, ready for a `vm_push_pair`. -/
def vmB : VM :=
  { heap := [(1, ⟨false, .int 2⟩), (0, ⟨false, .int 1⟩)],
    object_num := 2, object_max := 8, stack := [0, 1], nextAddr := 2 }

/-- The state after `vm_push_int` of 1 on a fresh VM. -/
def s1 : VM :=
  { heap := [(0, ⟨false, .int 1⟩)], object_num := 1, object_max := 8,
    stack := [0], nextAddr := 1 }

theorem markWork_s1 : markWork s1.heap s1.stack = [(0, ⟨true, ObjData.int 1⟩)] := by
  rw [show s1.stack = [0] from rfl]
  rw [markWork_cons_int s1.heap 0 [] ⟨false, .int 1⟩ 1 rfl rfl rfl]
  rw [markWork_nil]
  rfl

/-- Collecting `s1` keeps its one rooted object and sets the threshold to
`1 * 2 = 2`, below the initial floor of 8. -/
theorem gc_s1 : gc s1 =
    { heap := [(0, ⟨false, ObjData.int 1⟩)], object_num := 1, object_max := 2,
      stack := [0], nextAddr := 1 } := by
  have h0 : s1.object_num ≠ 0 := by decide
  have hnum : (gc s1).object_num = 1 := by
    rw [gc_num_def h0, markWork_s1]
    rfl
  apply VM.ext'
  · rw [gc_heap_eq h0, markWork_s1]
    rfl
  · exact hnum
  · rw [gc_max_def h0, hnum]
    norm_num
  · rw [gc_stack_eq]
    rfl
  · rw [gc_nextAddr_eq]
    rfl

/-! ## The claims -/

/-- C1: for every well-formed VM state, a collection cycle leaves chained
exactly the addresses transitively reachable from the Root Set at the start
of the cycle, and afterwards `object_num` equals the number of chained (hence
of reachable) objects — the chain having no duplicate addresses. -/
theorem gc_collects_exactly_reachable (vm : VM) (hwf : WF vm) :
    (∀ x, (heapLookup (gc vm).heap x).isSome = true ↔ Reaches vm x) ∧
    (gc vm).object_num = (gc vm).heap.length ∧
    (((gc vm).heap).map Prod.fst).Nodup :=
  ⟨fun x => gc_lookup_isSome_iff hwf x, gc_num_len hwf, gc_nodup hwf⟩

theorem gc_collects_exactly_reachable_witness :
    WF vmA ∧
      ((∀ x, (heapLookup (gc vmA).heap x).isSome = true ↔ Reaches vmA x) ∧
        (gc vmA).object_num = (gc vmA).heap.length ∧
        (((gc vmA).heap).map Prod.fst).Nodup) :=
  ⟨by decide, gc_collects_exactly_reachable vmA (by decide)⟩

/-- C2 (counterexample): the reachable state reached by pushing one int on a
fresh VM and collecting has `object_num = 1` and `object_max = 2`, so after
that collection `threshold ≠ max(live_count * 2, initial_floor)` and the
threshold has dropped strictly below the initial floor of 8. -/
theorem threshold_floor_counterexample :
    ReachableVM (gc s1) ∧ (gc s1).object_num = 1 ∧ (gc s1).object_max = 2 ∧
    (gc s1).object_max ≠ max ((gc s1).object_num * 2) GC_INITIAL_THRESHOLD ∧
    (gc s1).object_max < GC_INITIAL_THRESHOLD := by
  have hs1 : vm_push_int new_vm 1 = some (s1, 0) := by decide
  refine ⟨ReachableVM.gc_step s1
    (ReachableVM.push_int new_vm s1 1 0 ReachableVM.init hs1), ?_, ?_, ?_, ?_⟩ <;>
    rw [gc_s1] <;> decide

/-- C2 (amended): after a collection cycle on a reachable state the threshold
is `live_count * 2` when the post-sweep live count is positive and the initial
floor when it is zero (with no `max` applied, so it can drop below the floor,
e.g. to 2); in every reachable state the threshold is positive. -/
theorem threshold_after_collection (vm : VM) (hr : ReachableVM vm) :
    ((gc vm).object_num ≠ 0 → (gc vm).object_max = (gc vm).object_num * 2) ∧
    ((gc vm).object_num = 0 → (gc vm).object_max = GC_INITIAL_THRESHOLD) ∧
    0 < vm.object_max := by
  refine ⟨?_, ?_, (Inv_reachable hr).1⟩
  · intro h1
    by_cases h0 : vm.object_num = 0
    · rw [gc_zero h0] at h1
      exact absurd h0 h1
    · rw [gc_max_def h0, if_pos h1]
  · intro h1
    by_cases h0 : vm.object_num = 0
    · rw [gc_zero h0]
      exact (Inv_reachable hr).2.2 h0
    · rw [gc_max_def h0, if_neg (fun hc => hc h1)]

theorem threshold_after_collection_witness :
    ReachableVM new_vm ∧
      (((gc new_vm).object_num ≠ 0 →
          (gc new_vm).object_max = (gc new_vm).object_num * 2) ∧
        ((gc new_vm).object_num = 0 →
          (gc new_vm).object_max = GC_INITIAL_THRESHOLD) ∧
        0 < new_vm.object_max) :=
  ⟨ReachableVM.init, threshold_after_collection new_vm ReachableVM.init⟩

/-- C3: the mark phase is total by construction (`markWork` recurses on the
strictly decreasing count of unmarked objects, which is what the
already-marked guard ensures even on cyclic graphs); on a well-formed state
it marks every address transitively reachable from the Root Set, and an
already-marked object is never re-visited: the recursion returns at once on
it. -/
theorem mark_phase_marks_reachable (vm : VM) (hwf : WF vm) :
    (∀ x, Reaches vm x → markedB (gc_mark_all vm).heap x = true) ∧
    (∀ (h : Heap) (a : Addr) (ws : List Addr) (o : Object),
      heapLookup h a = some o → o.mark = true →
        markWork h (a :: ws) = markWork h ws) := by
  constructor
  · intro x hx
    rw [gc_mark_all_heap, markedB_markWork]
    obtain ⟨r, hr, hp⟩ := hx
    exact Or.inr ⟨Reaches_isSome hwf ⟨r, hr, hp⟩, r, hr,
      hp.mono (fun a b hs => (stepU_of_unmarked hwf.2.2.1 a b).mpr hs)⟩
  · exact fun h a ws o hl hm => markWork_cons_marked h a ws o hl hm

theorem mark_phase_marks_reachable_witness :
    WF vmA ∧
      ((∀ x, Reaches vmA x → markedB (gc_mark_all vmA).heap x = true) ∧
        (∀ (h : Heap) (a : Addr) (ws : List Addr) (o : Object),
          heapLookup h a = some o → o.mark = true →
            markWork h (a :: ws) = markWork h ws)) :=
  ⟨by decide, mark_phase_marks_reachable vmA (by decide)⟩

/-- C4: with at least two roots `.. ++ [x, y]`, `vm_push_pair` runs the
collection trigger before the two pops, pops the top `y` as the pair's tail
and the next `x` as its head, links the pair at the fresh address and pushes
it; both operands are still chained afterwards (rooted across the potential
collection, they cannot be reclaimed by it). -/
theorem push_pair_pops_in_order_and_keeps_operands (vm : VM) (rest : List Addr)
    (x y : Addr) (hwf : WF vm) (hs : vm.stack = rest ++ [x, y]) :
    ∃ vm', vm_push_pair vm = some (vm', vm.nextAddr) ∧
      heapLookup vm'.heap vm.nextAddr = some ⟨false, .pair x y⟩ ∧
      (heapLookup vm'.heap x).isSome = true ∧
      (heapLookup vm'.heap y).isSome = true ∧
      vm'.stack = rest ++ [vm.nextAddr] := by
  have h0stack : (if vm.object_num = vm.object_max then gc vm else vm).stack =
      vm.stack := by
    by_cases he : vm.object_num = vm.object_max
    · rw [if_pos he, gc_stack_eq]
    · rw [if_neg he]
  have h0next : (if vm.object_num = vm.object_max then gc vm else vm).nextAddr =
      vm.nextAddr := by
    by_cases he : vm.object_num = vm.object_max
    · rw [if_pos he, gc_nextAddr_eq]
    · rw [if_neg he]
  have h0lookup : ∀ z, z ∈ vm.stack →
      (heapLookup (if vm.object_num = vm.object_max then gc vm else vm).heap
        z).isSome = true ∧ z < vm.nextAddr := by
    intro z hz
    by_cases he : vm.object_num = vm.object_max
    · rw [if_pos he]
      have hsome := (gc_lookup_isSome_iff hwf z).mpr ⟨z, hz, .refl⟩
      obtain ⟨o, ho⟩ := Option.isSome_iff_exists.mp hsome
      obtain ⟨hvz, -⟩ := gc_lookup_some hwf ho
      exact ⟨hsome, hwf.2.2.2.2.2.1 _ (heapLookup_mem hvz)⟩
    · rw [if_neg he]
      have hsome := hwf.2.2.2.1 z hz
      obtain ⟨o, ho⟩ := Option.isSome_iff_exists.mp hsome
      exact ⟨hsome, hwf.2.2.2.2.2.1 _ (heapLookup_mem ho)⟩
  obtain ⟨hxs, hxlt⟩ := h0lookup x (by rw [hs]; simp)
  obtain ⟨hys, hylt⟩ := h0lookup y (by rw [hs]; simp)
  have hrestlen : rest.length + 2 = vm.stack.length := by
    rw [hs]
    simp
  have hcap := hwf.2.2.2.2.2.2
  unfold vm_push_pair
  dsimp only
  have hpop1 : vm_pop (if vm.object_num = vm.object_max then gc vm else vm) =
      some ({ (if vm.object_num = vm.object_max then gc vm else vm) with
        stack := rest ++ [x] }, y) := by
    apply vm_pop_concat
    rw [h0stack, hs]
    simp
  rw [hpop1]
  dsimp only
  have hpop2 : vm_pop ({ (if vm.object_num = vm.object_max then gc vm else vm)
      with stack := rest ++ [x] }) =
      some ({ (if vm.object_num = vm.object_max then gc vm else vm) with
        stack := rest }, x) := vm_pop_concat (by simp)
  rw [hpop2]
  dsimp only [alloc_object]
  have hlen : (rest : List Addr).length < STACK_MAX := by
    have hsm : STACK_MAX = 256 := rfl
    omega
  rw [vm_push_some _ hlen]
  dsimp only
  rw [h0next]
  refine ⟨_, rfl, ?_, ?_, ?_, rfl⟩
  · simp [heapLookup]
  · have hne : vm.nextAddr ≠ x := Ne.symm (Nat.ne_of_lt hxlt)
    simp only [heapLookup, if_neg hne]
    exact hxs
  · have hne : vm.nextAddr ≠ y := Ne.symm (Nat.ne_of_lt hylt)
    simp only [heapLookup, if_neg hne]
    exact hys

theorem push_pair_pops_in_order_and_keeps_operands_witness :
    WF vmB ∧ vmB.stack = [] ++ [0, 1] ∧
      (∃ vm', vm_push_pair vmB = some (vm', vmB.nextAddr) ∧
        heapLookup vm'.heap vmB.nextAddr = some ⟨false, .pair 0 1⟩ ∧
        (heapLookup vm'.heap 0).isSome = true ∧
        (heapLookup vm'.heap 1).isSome = true ∧
        vm'.stack = [] ++ [vmB.nextAddr]) :=
  ⟨by decide, rfl,
    push_pair_pops_in_order_and_keeps_operands vmB [] 0 1 (by decide) rfl⟩

/-- C5: for a collection cycle entered with a positive live count, the
threshold is set after the sweep to `live_count * 2` when the post-sweep
live count is positive, and reset to the initial floor when it is zero. -/
theorem threshold_update_after_sweep (vm : VM) (h0 : vm.object_num ≠ 0) :
    ((gc vm).object_num ≠ 0 → (gc vm).object_max = (gc vm).object_num * 2) ∧
    ((gc vm).object_num = 0 → (gc vm).object_max = GC_INITIAL_THRESHOLD) := by
  have hmax := gc_max_def h0
  constructor
  · intro h1
    rw [hmax, if_pos h1]
  · intro h1
    rw [hmax, if_neg (fun hc => hc h1)]

theorem threshold_update_after_sweep_witness :
    s1.object_num ≠ 0 ∧
      (((gc s1).object_num ≠ 0 → (gc s1).object_max = (gc s1).object_num * 2) ∧
        ((gc s1).object_num = 0 →
          (gc s1).object_max = GC_INITIAL_THRESHOLD)) :=
  ⟨by decide, threshold_update_after_sweep s1 (by decide)⟩

/-- C6: on a well-formed state a second collection cycle run immediately
after a first one is a no-op: it returns the identical state, so it reclaims
nothing and leaves `object_num` unchanged. -/
theorem gc_idempotent (vm : VM) (hwf : WF vm) :
    gc (gc vm) = gc vm ∧ (gc (gc vm)).object_num = (gc vm).object_num :=
  ⟨gc_gc hwf, by rw [gc_gc hwf]⟩

theorem gc_idempotent_witness :
    WF vmA ∧ (gc (gc vmA) = gc vmA ∧
      (gc (gc vmA)).object_num = (gc vmA).object_num) :=
  ⟨by decide, gc_idempotent vmA (by decide)⟩

/-- C7: teardown (clearing the Root Set then forcing a collection) leaves
zero live objects and an empty chain, whatever the prior well-formed
contents of the Root Set and the Heap were. -/
theorem teardown_reclaims_all (vm : VM) (hwf : WF vm) :
    (free_vm vm).object_num = 0 ∧ (free_vm vm).heap = [] :=
  ⟨(free_vm_heap_empty hwf).2, (free_vm_heap_empty hwf).1⟩

theorem teardown_reclaims_all_witness :
    WF vmA ∧ ((free_vm vmA).object_num = 0 ∧ (free_vm vmA).heap = []) :=
  ⟨by decide, teardown_reclaims_all vmA (by decide)⟩

/-- C8: with the stack within capacity, `vm_push` fails exactly when the
Root Set is at its fixed capacity `STACK_MAX` and otherwise appends the
reference (depth + 1), and `vm_pop` fails exactly when the Root Set is empty
and otherwise removes and returns the most recently pushed reference. -/
theorem push_pop_fail_iff (vm : VM) (v : Addr)
    (hcap : vm.stack.length ≤ STACK_MAX) :
    (vm_push vm v = none ↔ vm.stack.length = STACK_MAX) ∧
    (vm.stack.length < STACK_MAX →
      vm_push vm v = some { vm with stack := vm.stack ++ [v] }) ∧
    (vm_pop vm = none ↔ vm.stack = []) ∧
    (∀ rest x, vm.stack = rest ++ [x] →
      vm_pop vm = some ({ vm with stack := rest }, x)) := by
  refine ⟨?_, fun h => vm_push_some v h, vm_pop_none_iff vm,
    fun rest x hs => vm_pop_concat hs⟩
  rw [vm_push_none_iff]
  omega

theorem push_pop_fail_iff_witness :
    new_vm.stack.length ≤ STACK_MAX ∧
      ((vm_push new_vm 0 = none ↔ new_vm.stack.length = STACK_MAX) ∧
        (new_vm.stack.length < STACK_MAX →
          vm_push new_vm 0 = some { new_vm with stack := new_vm.stack ++ [0] }) ∧
        (vm_pop new_vm = none ↔ new_vm.stack = []) ∧
        (∀ rest x, new_vm.stack = rest ++ [x] →
          vm_pop new_vm = some ({ new_vm with stack := rest }, x))) :=
  ⟨by decide, push_pop_fail_iff new_vm 0 (by decide)⟩

/-- C9: a collection cycle leaves the Root Set (depth and entries) and the
allocation counter untouched, and every surviving chain entry is exactly the
object that was there before, with its payload unchanged and its mark clear. -/
theorem gc_frame (vm : VM) (hwf : WF vm) :
    (gc vm).stack = vm.stack ∧ (gc vm).nextAddr = vm.nextAddr ∧
    (∀ x o, heapLookup (gc vm).heap x = some o →
      heapLookup vm.heap x = some o ∧ o.mark = false) :=
  ⟨gc_stack_eq vm, gc_nextAddr_eq vm, fun _ _ hl => gc_lookup_some hwf hl⟩

theorem gc_frame_witness :
    WF vmA ∧
      ((gc vmA).stack = vmA.stack ∧ (gc vmA).nextAddr = vmA.nextAddr ∧
        (∀ x o, heapLookup (gc vmA).heap x = some o →
          heapLookup vmA.heap x = some o ∧ o.mark = false)) :=
  ⟨by decide, gc_frame vmA (by decide)⟩

/-- C10: every state reachable from `new_vm` by the public operations has a
positive threshold, a live count never exceeding the threshold (so the
equality trigger check in `new_object` suffices), and a threshold equal to
the initial floor whenever the live count is zero. -/
theorem reachable_states_satisfy_inv (vm : VM) (hr : ReachableVM vm) :
    0 < vm.object_max ∧ vm.object_num ≤ vm.object_max ∧
    (vm.object_num = 0 → vm.object_max = GC_INITIAL_THRESHOLD) :=
  Inv_reachable hr

theorem reachable_states_satisfy_inv_witness :
    ReachableVM new_vm ∧
      (0 < new_vm.object_max ∧ new_vm.object_num ≤ new_vm.object_max ∧
        (new_vm.object_num = 0 → new_vm.object_max = GC_INITIAL_THRESHOLD)) :=
  ⟨ReachableVM.init, reachable_states_satisfy_inv new_vm ReachableVM.init⟩

end MarkSweep
